import Mathlib

/-!
Verification of the local RAG notebook pipeline: paragraph chunking, embedding,
a flat L2 similarity index, and top-5 retrieval mapping index positions back to
chunk strings.
-/

namespace Rag

/-- Embedding vectors are modelled as lists of integers: an exact stand-in for the
floating-point vectors of the sentence-embedding model, adequate for the positional
and distance-zero properties at issue. -/
abbrev Vec := List Int

/-- Squared Euclidean distance between two vectors, the metric of a flat L2 index. -/
def sqDist (u v : Vec) : Int :=
  ((u.zip v).map (fun p => (p.1 - p.2) ^ 2)).sum

/-- Python semantics of `text.split(sep)` for the two-character double-newline
separator, over the character list of the text: greedy leftmost non-overlapping
splitting, keeping empty pieces. -/
def pySplitSep : List Char → List (List Char)
  | [] => [[]]
  | [c] => [[c]]
  | c1 :: c2 :: rest =>
    if c1 = '\n' ∧ c2 = '\n' then
      [] :: pySplitSep rest
    else
      match pySplitSep (c2 :: rest) with
      | [] => [[c1]]
      | p :: ps => (c1 :: p) :: ps

/-- Number of greedy leftmost non-overlapping occurrences of the double-newline
separator in a character list. -/
def countSep : List Char → Nat
  | [] => 0
  | [_] => 0
  | c1 :: c2 :: rest =>
    if c1 = '\n' ∧ c2 = '\n' then countSep rest + 1 else countSep (c2 :: rest)

/-- The chunking step of `chunk_and_embed_text`: `text.split` on the double newline. -/
def chunk (text : String) : List String :=
  (pySplitSep text.data).map (fun cs => String.mk cs)

/-- `chunk_and_embed_text` (notebook step 3): split the text into paragraph chunks
and embed every chunk.  The embedding model is a parameter: an arbitrary
deterministic string-to-vector map. -/
def chunk_and_embed_text (encode : String → Vec) (text : String) :
    List String × List Vec :=
  (chunk text, (chunk text).map encode)

/-- The flat L2 similarity index: its dimensionality and the stored vectors in
insertion order (the position in the list is the FAISS id). -/
structure FaissIndex where
  d : Nat
  vecs : List Vec
deriving DecidableEq

/-- `create_faiss_index` (notebook step 4): size the index to the dimensionality of
the first vector (`embeddings.shape[1]`), then add all vectors in order.  A ragged
batch has no rectangular shape and cannot be added (every vector must have the index
dimensionality), and an empty batch has no second shape component: both error
(`none`). -/
def create_faiss_index (embeddings : List Vec) : Option FaissIndex :=
  match embeddings with
  | [] => none
  | v :: vs =>
    if vs.all (fun w => w.length == v.length) then
      some ⟨v.length, v :: vs⟩
    else none

/-- Ordering of (distance, id) pairs: by distance, ties towards the lower id. -/
def keyLe (a b : Int × Nat) : Bool :=
  decide (a.1 < b.1) || (decide (a.1 = b.1) && decide (a.2 ≤ b.2))

/-- Insertion step of the stable sort of (distance, id) pairs. -/
def insertPair (a : Int × Nat) : List (Int × Nat) → List (Int × Nat)
  | [] => [a]
  | b :: bs => if keyLe a b then a :: b :: bs else b :: insertPair a bs

/-- Sort (distance, id) pairs by `keyLe` (insertion sort). -/
def sortPairs : List (Int × Nat) → List (Int × Nat)
  | [] => []
  | a :: as => insertPair a (sortPairs as)

/-- Distance value reported in unfilled result slots (a stand-in for the huge float
sentinel FAISS leaves there); no property below depends on it. -/
def padDist : Int := (2 : Int) ^ 127

/-- The (distance, id) pair of every stored vector for a given query: the exhaustive
scan a flat index performs. -/
def scoredOf (idx : FaissIndex) (q : Vec) : List (Int × Nat) :=
  (List.range idx.vecs.length).map (fun i => (sqDist q (idx.vecs.getD i []), i))

/-- Model of `faiss.IndexFlatL2.search` restricted to a single query vector:
exhaustive k-nearest-neighbour search by squared L2 distance over the stored
vectors, returning the distance row and the id row.  When `k` exceeds the number of
stored vectors, the remaining id slots are filled with `-1` (documented behaviour of
flat FAISS indexes); ties resolve towards the lower id. -/
def faissSearch (idx : FaissIndex) (q : Vec) (k : Nat) : List Int × List Int :=
  (((sortPairs (scoredOf idx q)).take k).map (fun p => p.1)
     ++ List.replicate (k - ((sortPairs (scoredOf idx q)).take k).length) padDist,
   ((sortPairs (scoredOf idx q)).take k).map (fun p => ((p.2 : Int)))
     ++ List.replicate (k - ((sortPairs (scoredOf idx q)).take k).length) (-1))

/-- Python list indexing `xs[i]` with a possibly negative integer index: a negative
index counts from the end; out of range raises (`none`). -/
def pyGet (xs : List String) (i : Int) : Option String :=
  if 0 ≤ i then xs[i.toNat]?
  else if 0 ≤ (xs.length : Int) + i then xs[((xs.length : Int) + i).toNat]?
  else none

/-- The list comprehension of `search_query` mapping the id row back into the chunk
list; an id out of range for Python indexing raises (`none`). -/
def pySelect (chunks : List String) : List Int → Option (List String)
  | [] => some []
  | i :: is =>
    match pyGet chunks i, pySelect chunks is with
    | some c, some cs => some (c :: cs)
    | _, _ => none

/-- `search_query` (notebook step 5): embed the query, search the index with the
hard-coded `k = 5`, and map the returned id row `I[0]` back into the chunk list.
FAISS rejects a query whose dimensionality differs from the index dimensionality. -/
def search_query (encode : String → Vec) (query : String) (index : FaissIndex)
    (chunks : List String) : Option (List String) :=
  let query_embedding := encode query
  if query_embedding.length = index.d then
    pySelect chunks (faissSearch index query_embedding 5).2
  else none

/-- Modelled from the spec: `search(query, index, chunks, k)` of section 4.4 with an
explicit result count `k`.  The notebook hard-codes `k = 5`; the spec scenarios
quantify over `k`, which only this generalisation can state. -/
def search_query_k (encode : String → Vec) (query : String) (index : FaissIndex)
    (chunks : List String) (k : Nat) : Option (List String) :=
  let query_embedding := encode query
  if query_embedding.length = index.d then
    pySelect chunks (faissSearch index query_embedding k).2
  else none

/-! ### Lemmas about splitting -/

theorem pySplitSep_ne_nil (cs : List Char) : pySplitSep cs ≠ [] := by
  match cs with
  | [] => simp [pySplitSep]
  | [c] => simp [pySplitSep]
  | c1 :: c2 :: rest =>
    rw [pySplitSep]
    split
    · simp
    · split <;> simp

theorem length_pySplitSep (cs : List Char) :
    (pySplitSep cs).length = countSep cs + 1 := by
  match cs with
  | [] => simp [pySplitSep, countSep]
  | [c] => simp [pySplitSep, countSep]
  | c1 :: c2 :: rest =>
    rw [pySplitSep, countSep]
    split
    · simp [length_pySplitSep rest]
    · have h := length_pySplitSep (c2 :: rest)
      have hne := pySplitSep_ne_nil (c2 :: rest)
      cases hps : pySplitSep (c2 :: rest) with
      | nil => exact absurd hps hne
      | cons p ps =>
        rw [hps] at h
        simpa using h

/-! ### Lemmas about the distance -/

theorem sqDist_nonneg (u v : Vec) : 0 ≤ sqDist u v := by
  unfold sqDist
  apply List.sum_nonneg
  intro x hx
  rcases List.mem_map.mp hx with ⟨p, _, rfl⟩
  exact sq_nonneg _

theorem sqDist_self (v : Vec) : sqDist v v = 0 := by
  induction v with
  | nil => rfl
  | cons a as ih => simpa [sqDist, List.zip_cons_cons] using ih

theorem sqDist_pos : ∀ {u v : Vec}, u.length = v.length → u ≠ v → 0 < sqDist u v := by
  intro u
  induction u with
  | nil =>
    intro v hlen hne
    cases v with
    | nil => exact absurd rfl hne
    | cons b bs => simp at hlen
  | cons a as ih =>
    intro v hlen hne
    cases v with
    | nil => simp at hlen
    | cons b bs =>
      have hrest : sqDist (a :: as) (b :: bs) = (a - b) ^ 2 + sqDist as bs := by
        simp [sqDist, List.zip_cons_cons]
      rw [hrest]
      by_cases hab : a = b
      · subst hab
        have hne2 : as ≠ bs := fun h => hne (by rw [h])
        have hpos := ih (by simpa using hlen) hne2
        have hz : (a - a) ^ 2 = 0 := by simp
        omega
      · have h1 : 0 < (a - b) ^ 2 := pow_two_pos_of_ne_zero (sub_ne_zero.mpr hab)
        have h2 := sqDist_nonneg as bs
        omega

/-! ### Lemmas about the sort of (distance, id) pairs -/

theorem keyLe_refl (a : Int × Nat) : keyLe a a = true := by
  unfold keyLe
  simp

theorem keyLe_total (a b : Int × Nat) : keyLe a b = true ∨ keyLe b a = true := by
  unfold keyLe
  simp only [Bool.or_eq_true, Bool.and_eq_true, decide_eq_true_eq]
  omega

theorem keyLe_trans {a b c : Int × Nat} (h1 : keyLe a b = true)
    (h2 : keyLe b c = true) : keyLe a c = true := by
  unfold keyLe at h1 h2 ⊢
  simp only [Bool.or_eq_true, Bool.and_eq_true, decide_eq_true_eq] at h1 h2 ⊢
  omega

theorem insertPair_perm (a : Int × Nat) (l : List (Int × Nat)) :
    List.Perm (insertPair a l) (a :: l) := by
  induction l with
  | nil => exact List.Perm.refl _
  | cons b bs ih =>
    rw [insertPair]
    split
    · exact List.Perm.refl _
    · exact (ih.cons b).trans (List.Perm.swap a b bs)

theorem sortPairs_perm (l : List (Int × Nat)) : List.Perm (sortPairs l) l := by
  induction l with
  | nil => exact List.Perm.refl _
  | cons a as ih => exact (insertPair_perm a (sortPairs as)).trans (ih.cons a)

theorem sortPairs_length (l : List (Int × Nat)) :
    (sortPairs l).length = l.length :=
  (sortPairs_perm l).length_eq

theorem pairwise_insertPair {a : Int × Nat} {l : List (Int × Nat)}
    (h : l.Pairwise (fun x y => keyLe x y = true)) :
    (insertPair a l).Pairwise (fun x y => keyLe x y = true) := by
  induction l with
  | nil => simp [insertPair]
  | cons b bs ih =>
    rcases List.pairwise_cons.mp h with ⟨hb, hbs⟩
    rw [insertPair]
    split
    next hab =>
      refine List.pairwise_cons.mpr ⟨?_, h⟩
      intro x hx
      rcases List.mem_cons.mp hx with rfl | hxbs
      · exact hab
      · exact keyLe_trans hab (hb x hxbs)
    next hab =>
      have hba : keyLe b a = true := by
        rcases keyLe_total a b with h1 | h1
        · exact absurd h1 hab
        · exact h1
      refine List.pairwise_cons.mpr ⟨?_, ih hbs⟩
      intro x hx
      rcases List.mem_cons.mp ((insertPair_perm a bs).mem_iff.mp hx) with rfl | hxbs
      · exact hba
      · exact hb x hxbs

theorem sortPairs_pairwise (l : List (Int × Nat)) :
    (sortPairs l).Pairwise (fun x y => keyLe x y = true) := by
  induction l with
  | nil => simp [sortPairs]
  | cons a as ih => exact pairwise_insertPair ih

theorem sortPairs_head_min {l : List (Int × Nat)} {a : Int × Nat} (ha : a ∈ l)
    (hmin : ∀ b ∈ l, b = a ∨ keyLe b a = false) :
    ∃ t, sortPairs l = a :: t := by
  have hperm := sortPairs_perm l
  have hmem : a ∈ sortPairs l := hperm.mem_iff.mpr ha
  cases hs : sortPairs l with
  | nil => rw [hs] at hmem; simp at hmem
  | cons h t =>
    rw [hs] at hmem
    have hp := sortPairs_pairwise l
    rw [hs] at hp
    rcases List.pairwise_cons.mp hp with ⟨hle, _⟩
    have hhl : h ∈ l := hperm.mem_iff.mp (by rw [hs]; exact List.mem_cons_self h t)
    rcases hmin h hhl with rfl | hfalse
    · exact ⟨t, rfl⟩
    · rcases List.mem_cons.mp hmem with rfl | hat
      · rw [keyLe_refl] at hfalse
        simp at hfalse
      · have htrue := hle a hat
        rw [hfalse] at htrue
        simp at htrue

/-! ### Lemmas about the Python-indexing selection -/

theorem pyGet_nonneg {chunks : List String} {i : Int} (h0 : 0 ≤ i) :
    pyGet chunks i = chunks[i.toNat]? := by
  unfold pyGet
  simp [h0]

theorem pyGet_isSome_of_lt {chunks : List String} {i : Int} (h0 : 0 ≤ i)
    (hlt : i < (chunks.length : Int)) : (pyGet chunks i).isSome := by
  rw [pyGet_nonneg h0]
  rw [List.getElem?_eq_getElem (by omega)]
  rfl

theorem pyGet_neg_one {chunks : List String} (h : chunks ≠ []) :
    pyGet chunks (-1) = chunks.getLast? := by
  unfold pyGet
  have hlen : 0 < chunks.length := List.length_pos.mpr h
  have h1 : ¬ ((0 : Int) ≤ -1) := by omega
  have h2 : (0 : Int) ≤ (chunks.length : Int) + (-1) := by omega
  rw [if_neg h1, if_pos h2]
  have h3 : ((chunks.length : Int) + (-1)).toNat = chunks.length - 1 := by omega
  rw [h3, List.getLast?_eq_getElem?]

theorem pySelect_length {chunks : List String} :
    ∀ {is : List Int} {r : List String}, pySelect chunks is = some r →
      r.length = is.length := by
  intro is
  induction is with
  | nil => intro r h; simp [pySelect] at h; simp [← h]
  | cons i it ih =>
    intro r h
    rw [pySelect] at h
    cases hg : pyGet chunks i with
    | none => rw [hg] at h; simp at h
    | some c =>
      cases hs : pySelect chunks it with
      | none => rw [hg, hs] at h; simp at h
      | some cs =>
        rw [hg, hs] at h
        simp at h
        rw [← h]
        simp [ih hs]

theorem pySelect_isSome {chunks : List String} :
    ∀ {is : List Int}, (∀ i ∈ is, (pyGet chunks i).isSome) →
      ∃ r, pySelect chunks is = some r ∧ r.length = is.length := by
  intro is
  induction is with
  | nil => intro _; exact ⟨[], rfl, rfl⟩
  | cons i it ih =>
    intro h
    have hi := h i (List.mem_cons_self i it)
    rcases Option.isSome_iff_exists.mp hi with ⟨c, hc⟩
    rcases ih (fun j hj => h j (List.mem_cons_of_mem i hj)) with ⟨cs, hcs, hlen⟩
    refine ⟨c :: cs, ?_, by simp [hlen]⟩
    rw [pySelect, hc, hcs]

theorem pySelect_mem {chunks : List String} :
    ∀ {is : List Int} {r : List String}, pySelect chunks is = some r →
      ∀ {i : Int} {c : String}, i ∈ is → pyGet chunks i = some c → c ∈ r := by
  intro is
  induction is with
  | nil => intro r _ i c hi; simp at hi
  | cons j jt ih =>
    intro r h i c hi hc
    rw [pySelect] at h
    cases hg : pyGet chunks j with
    | none => rw [hg] at h; simp at h
    | some c0 =>
      cases hs : pySelect chunks jt with
      | none => rw [hg, hs] at h; simp at h
      | some cs =>
        rw [hg, hs] at h
        simp at h
        rcases List.mem_cons.mp hi with rfl | hit
        · rw [hg] at hc
          simp at hc
          rw [← h, ← hc]
          exact List.mem_cons_self c0 cs
        · rw [← h]
          exact List.mem_cons_of_mem c0 (ih hs hit hc)

theorem pySelect_append {chunks : List String} :
    ∀ {is js : List Int} {r s : List String}, pySelect chunks is = some r →
      pySelect chunks js = some s → pySelect chunks (is ++ js) = some (r ++ s) := by
  intro is
  induction is with
  | nil =>
    intro js r s hr hs
    simp [pySelect] at hr
    subst hr
    simpa using hs
  | cons i it ih =>
    intro js r s hr hs
    rw [pySelect] at hr
    cases hg : pyGet chunks i with
    | none => rw [hg] at hr; simp at hr
    | some c =>
      cases ht : pySelect chunks it with
      | none => rw [hg, ht] at hr; simp at hr
      | some cs =>
        rw [hg, ht] at hr
        simp at hr
        rw [List.cons_append, pySelect, hg, ih ht hs, ← hr]
        simp

theorem pySelect_replicate_neg_one {chunks : List String} {c : String}
    (hc : chunks.getLast? = some c) (n : Nat) :
    pySelect chunks (List.replicate n (-1)) = some (List.replicate n c) := by
  have hne : chunks ≠ [] := by
    intro h
    rw [h] at hc
    simp at hc
  induction n with
  | zero => rfl
  | succ m ih =>
    rw [List.replicate_succ, List.replicate_succ, pySelect, pyGet_neg_one hne, hc, ih]

/-! ### Lemmas about the index search -/

theorem scoredOf_length (idx : FaissIndex) (q : Vec) :
    (scoredOf idx q).length = idx.vecs.length := by
  unfold scoredOf
  simp

theorem scoredOf_mem {idx : FaissIndex} {q : Vec} {p : Int × Nat}
    (hp : p ∈ scoredOf idx q) :
    p.2 < idx.vecs.length ∧ p.1 = sqDist q (idx.vecs.getD p.2 []) := by
  unfold scoredOf at hp
  rcases List.mem_map.mp hp with ⟨j, hj, rfl⟩
  exact ⟨List.mem_range.mp hj, rfl⟩

theorem scoredOf_mem_of_lt {idx : FaissIndex} {q : Vec} {j : Nat}
    (hj : j < idx.vecs.length) :
    (sqDist q (idx.vecs.getD j []), j) ∈ scoredOf idx q := by
  unfold scoredOf
  exact List.mem_map.mpr ⟨j, List.mem_range.mpr hj, rfl⟩

theorem faissSearch_snd (idx : FaissIndex) (q : Vec) (k : Nat) :
    (faissSearch idx q k).2 =
      ((sortPairs (scoredOf idx q)).take k).map (fun p => ((p.2 : Int)))
        ++ List.replicate (k - min k idx.vecs.length) (-1) := by
  unfold faissSearch
  simp [List.length_take, sortPairs_length, scoredOf_length]

theorem faissSearch_snd_length (idx : FaissIndex) (q : Vec) (k : Nat) :
    ((faissSearch idx q k).2).length = k := by
  rw [faissSearch_snd]
  simp only [List.length_append, List.length_map, List.length_take,
    List.length_replicate, sortPairs_length, scoredOf_length]
  omega

theorem mem_take_map_bound {idx : FaissIndex} {q : Vec} {k : Nat} {i : Int}
    (hi : i ∈ ((sortPairs (scoredOf idx q)).take k).map (fun p => ((p.2 : Int)))) :
    0 ≤ i ∧ i < (idx.vecs.length : Int) := by
  rcases List.mem_map.mp hi with ⟨p, hp, rfl⟩
  have hp2 : p ∈ sortPairs (scoredOf idx q) := List.mem_of_mem_take hp
  have hp3 : p ∈ scoredOf idx q := (sortPairs_perm _).mem_iff.mp hp2
  have := (scoredOf_mem hp3).1
  omega

theorem faissSearch_snd_mem {idx : FaissIndex} {q : Vec} {k : Nat} {i : Int}
    (h : i ∈ (faissSearch idx q k).2) :
    i = -1 ∨ (0 ≤ i ∧ i < (idx.vecs.length : Int)) := by
  rw [faissSearch_snd] at h
  rcases List.mem_append.mp h with h1 | h1
  · exact Or.inr (mem_take_map_bound h1)
  · exact Or.inl (List.eq_of_mem_replicate h1)

theorem faissSearch_snd_mem_full {idx : FaissIndex} {q : Vec} {k : Nat} {i : Int}
    (hk : k ≤ idx.vecs.length) (h : i ∈ (faissSearch idx q k).2) :
    0 ≤ i ∧ i < (idx.vecs.length : Int) := by
  rw [faissSearch_snd] at h
  have hz : k - min k idx.vecs.length = 0 := by omega
  rw [hz] at h
  simp only [List.replicate_zero, List.append_nil] at h
  exact mem_take_map_bound h

/-! ### The claims about `search_query` returning counts and positions -/

/-- C1 (amended): when the index holds at least `k = 5` vectors and the chunk list
is aligned with the index, `search_query` returns exactly `min 5 m = 5` chunk
strings and every id it maps back lies in `[0, len chunks)`. -/
theorem search_query_count_and_range (encode : String → Vec) (q : String)
    (idx : FaissIndex) (chunks : List String)
    (hd : (encode q).length = idx.d)
    (hm : 5 ≤ idx.vecs.length)
    (hc : chunks.length = idx.vecs.length) :
    ∃ r, search_query encode q idx chunks = some r ∧
      r.length = min 5 idx.vecs.length ∧
      ∀ i ∈ (faissSearch idx (encode q) 5).2, 0 ≤ i ∧ i < (chunks.length : Int) := by
  have hbound : ∀ i ∈ (faissSearch idx (encode q) 5).2,
      0 ≤ i ∧ i < (chunks.length : Int) := by
    intro i hi
    have := faissSearch_snd_mem_full hm hi
    omega
  have hsome : ∀ i ∈ (faissSearch idx (encode q) 5).2, (pyGet chunks i).isSome := by
    intro i hi
    exact pyGet_isSome_of_lt (hbound i hi).1 (hbound i hi).2
  rcases pySelect_isSome hsome with ⟨r, hr, hlen⟩
  refine ⟨r, ?_, ?_, hbound⟩
  · unfold search_query
    rw [if_pos hd]
    exact hr
  · rw [hlen, faissSearch_snd_length]
    omega

/-- C1 counterexample: on a 1-vector index with its aligned 1-chunk list,
`search_query` returns 5 strings, not `min 5 1 = 1`, and does so through the
out-of-range id `-1`. -/
theorem search_query_count_counterexample :
    search_query (fun _ => ([0] : Vec)) "q" ⟨1, [[0]]⟩ ["a"]
      = some ["a", "a", "a", "a", "a"] ∧
    ¬ ((5 : Nat) = min 5 1) ∧
    (faissSearch ⟨1, [[0]]⟩ [0] 5).2 = [0, -1, -1, -1, -1] := by
  refine ⟨by decide, by decide, by decide⟩

/-- C2 counterexample: with `k = 5` exceeding the single indexed vector, the call
does not fail: it returns a full result list. -/
theorem search_query_no_error_counterexample :
    (1 : Nat) < 5 ∧
    search_query (fun _ => ([0] : Vec)) "query" ⟨1, [[0]]⟩ ["a"]
      = some ["a", "a", "a", "a", "a"] := by
  refine ⟨by decide, by decide⟩

/-- C2 (amended): when `k = 5` exceeds the number of indexed vectors and the chunk
list is aligned (hence non-empty), `search_query` does not fail: it still returns a
list of exactly 5 chunk strings. -/
theorem search_query_pads_instead_of_failing (encode : String → Vec) (q : String)
    (idx : FaissIndex) (chunks : List String)
    (hd : (encode q).length = idx.d)
    (hm : idx.vecs.length < 5) (h0 : 0 < idx.vecs.length)
    (hc : chunks.length = idx.vecs.length) :
    ∃ r, search_query encode q idx chunks = some r ∧ r.length = 5 := by
  have hne : chunks ≠ [] := by
    intro h
    rw [h] at hc
    simp at hc
    omega
  have hsome : ∀ i ∈ (faissSearch idx (encode q) 5).2, (pyGet chunks i).isSome := by
    intro i hi
    rcases faissSearch_snd_mem hi with rfl | ⟨h1, h2⟩
    · rw [pyGet_neg_one hne]
      exact List.getLast?_isSome.mpr hne
    · exact pyGet_isSome_of_lt h1 (by omega)
  rcases pySelect_isSome hsome with ⟨r, hr, hlen⟩
  refine ⟨r, ?_, ?_⟩
  · unfold search_query
    rw [if_pos hd]
    exact hr
  · rw [hlen, faissSearch_snd_length]

/-- C5: whatever `search_query` returns has length exactly 5, and the call is the
`k = 5` instance of the spec-level parametric search. -/
theorem search_query_length_five (encode : String → Vec) (q : String)
    (idx : FaissIndex) (chunks : List String) :
    (∀ r, search_query encode q idx chunks = some r → r.length = 5) ∧
    search_query encode q idx chunks = search_query_k encode q idx chunks 5 := by
  constructor
  · intro r hr
    unfold search_query at hr
    by_cases hd : (encode q).length = idx.d
    · rw [if_pos hd] at hr
      rw [pySelect_length hr, faissSearch_snd_length]
    · rw [if_neg hd] at hr
      simp at hr
  · rfl

/-- C5 witness at a concrete index and chunk list. -/
theorem search_query_length_five_witness :
    search_query (fun _ => ([0] : Vec)) "w" ⟨1, [[0]]⟩ ["b"]
      = some ["b", "b", "b", "b", "b"] ∧
    (["b", "b", "b", "b", "b"] : List String).length = 5 :=
  ⟨by decide,
   (search_query_length_five (fun _ => ([0] : Vec)) "w" ⟨1, [[0]]⟩ ["b"]).1
     ["b", "b", "b", "b", "b"] (by decide)⟩

/-- C9: the chunk list returned by `search_query` is a function of the id row of the
index search and the chunk list alone; the distance row has no effect.  Two searches
with the same id row give the same result, whatever their distances. -/
theorem search_query_ignores_distances (encode1 encode2 : String → Vec)
    (q1 q2 : String) (idx1 idx2 : FaissIndex) (chunks : List String)
    (h1 : (encode1 q1).length = idx1.d) (h2 : (encode2 q2).length = idx2.d)
    (hpos : (faissSearch idx1 (encode1 q1) 5).2 = (faissSearch idx2 (encode2 q2) 5).2) :
    search_query encode1 q1 idx1 chunks = search_query encode2 q2 idx2 chunks := by
  unfold search_query
  rw [if_pos h1, if_pos h2, hpos]

/-- C9 witness: two indexes that disagree on the distance row but agree on the id
row give identical `search_query` results. -/
theorem search_query_ignores_distances_witness :
    (faissSearch ⟨1, [[0], [3]]⟩ [0] 5).1 ≠ (faissSearch ⟨1, [[0], [5]]⟩ [0] 5).1 ∧
    search_query (fun _ => ([0] : Vec)) "v" ⟨1, [[0], [3]]⟩ ["a", "b"]
      = search_query (fun _ => ([0] : Vec)) "v" ⟨1, [[0], [5]]⟩ ["a", "b"] :=
  ⟨by decide,
   search_query_ignores_distances (fun _ => ([0] : Vec)) (fun _ => ([0] : Vec))
     "v" "v" ⟨1, [[0], [3]]⟩ ⟨1, [[0], [5]]⟩ ["a", "b"]
     (by decide) (by decide) (by decide)⟩

/-- C1 witness at a 5-vector index aligned with a 5-chunk list. -/
theorem search_query_count_and_range_witness :
    ∃ r, search_query (fun s => [Int.ofNat s.length]) "qq"
        ⟨1, [[1], [2], [3], [4], [5]]⟩ ["u", "v", "w", "x", "y"] = some r ∧
      r.length = min 5 (FaissIndex.mk 1 [[1], [2], [3], [4], [5]]).vecs.length ∧
      ∀ i ∈ (faissSearch ⟨1, [[1], [2], [3], [4], [5]]⟩
          ((fun s => [Int.ofNat s.length]) "qq") 5).2,
        0 ≤ i ∧ i < ((["u", "v", "w", "x", "y"] : List String).length : Int) :=
  search_query_count_and_range (fun s => [Int.ofNat s.length]) "qq"
    ⟨1, [[1], [2], [3], [4], [5]]⟩ ["u", "v", "w", "x", "y"]
    (by decide) (by decide) (by decide)

/-- C2 witness at a 2-vector index aligned with a 2-chunk list. -/
theorem search_query_pads_instead_of_failing_witness :
    ∃ r, search_query (fun _ => ([0] : Vec)) "p" ⟨1, [[0], [1]]⟩ ["a", "b"]
        = some r ∧ r.length = 5 :=
  search_query_pads_instead_of_failing (fun _ => ([0] : Vec)) "p"
    ⟨1, [[0], [1]]⟩ ["a", "b"] (by decide) (by decide) (by decide) (by decide)

/-! ### Chunk and embedding alignment -/

theorem chunk_ne_nil (text : String) : chunk text ≠ [] := by
  unfold chunk
  intro h
  exact pySplitSep_ne_nil text.data (List.map_eq_nil_iff.mp h)

theorem getD_eq_of_lt {α : Type} {l : List α} {n : Nat} (d : α)
    (h : n < l.length) : l.getD n d = l[n] := by
  rw [List.getD_eq_getElem?_getD, List.getElem?_eq_getElem h]
  rfl

/-- C3: the embedding stage yields one vector per chunk, each of the model
dimensionality, with the vector at position `i` the embedding of the chunk at
position `i`; building the index keeps the vectors in that order, so an index
position refers to the chunk it was built from. -/
theorem chunk_and_embed_alignment (encode : String → Vec) (d : Nat)
    (hd : ∀ s, (encode s).length = d) (text : String) :
    (chunk_and_embed_text encode text).2.length
      = (chunk_and_embed_text encode text).1.length ∧
    (∀ v ∈ (chunk_and_embed_text encode text).2, v.length = d) ∧
    (∀ i, i < (chunk_and_embed_text encode text).1.length →
      (chunk_and_embed_text encode text).2.getD i []
        = encode ((chunk_and_embed_text encode text).1.getD i "")) ∧
    (∃ idx, create_faiss_index (chunk_and_embed_text encode text).2 = some idx ∧
      idx.vecs = (chunk_and_embed_text encode text).2 ∧
      ∀ i, i < (chunk_and_embed_text encode text).1.length →
        idx.vecs.getD i [] = encode ((chunk_and_embed_text encode text).1.getD i "")) := by
  have hpair : chunk_and_embed_text encode text = (chunk text, (chunk text).map encode) := rfl
  have hget : ∀ i, i < (chunk text).length →
      ((chunk text).map encode).getD i [] = encode ((chunk text).getD i "") := by
    intro i hi
    rw [getD_eq_of_lt [] (by simpa using hi), getD_eq_of_lt "" hi]
    simp
  refine ⟨by simp [hpair], ?_, ?_, ?_⟩
  · intro v hv
    rw [hpair] at hv
    rcases List.mem_map.mp hv with ⟨c, _, rfl⟩
    exact hd c
  · intro i hi
    rw [hpair] at hi ⊢
    exact hget i hi
  · rw [hpair]
    cases hcs : chunk text with
    | nil => exact absurd hcs (chunk_ne_nil text)
    | cons c cs =>
      refine ⟨⟨(encode c).length, encode c :: cs.map encode⟩, ?_, by simp, ?_⟩
      · unfold create_faiss_index
        have hall : (cs.map encode).all (fun w => w.length == (encode c).length) = true := by
          rw [List.all_eq_true]
          intro w hw
          rcases List.mem_map.mp hw with ⟨c2, _, rfl⟩
          simp [hd c2, hd c]
        simp [hall]
      · intro i hi
        rw [← hcs] at hi ⊢
        have h2 : (chunk text).map encode = encode c :: cs.map encode := by
          rw [hcs]
          simp
        rw [← h2]
        exact hget i hi

/-- C3 witness at a concrete model and text. -/
theorem chunk_and_embed_alignment_witness :
    (chunk_and_embed_text (fun s => [Int.ofNat s.length]) "ab\n\ncde").2.length
      = (chunk_and_embed_text (fun s => [Int.ofNat s.length]) "ab\n\ncde").1.length ∧
    (∀ v ∈ (chunk_and_embed_text (fun s => [Int.ofNat s.length]) "ab\n\ncde").2,
      v.length = 1) ∧
    (∀ i, i < (chunk_and_embed_text (fun s => [Int.ofNat s.length]) "ab\n\ncde").1.length →
      (chunk_and_embed_text (fun s => [Int.ofNat s.length]) "ab\n\ncde").2.getD i []
        = (fun s => [Int.ofNat s.length])
            ((chunk_and_embed_text (fun s => [Int.ofNat s.length]) "ab\n\ncde").1.getD i "")) ∧
    (∃ idx, create_faiss_index
        (chunk_and_embed_text (fun s => [Int.ofNat s.length]) "ab\n\ncde").2 = some idx ∧
      idx.vecs = (chunk_and_embed_text (fun s => [Int.ofNat s.length]) "ab\n\ncde").2 ∧
      ∀ i, i < (chunk_and_embed_text (fun s => [Int.ofNat s.length]) "ab\n\ncde").1.length →
        idx.vecs.getD i [] = (fun s => [Int.ofNat s.length])
          ((chunk_and_embed_text (fun s => [Int.ofNat s.length]) "ab\n\ncde").1.getD i "")) :=
  chunk_and_embed_alignment (fun s => [Int.ofNat s.length]) 1 (fun _ => rfl) "ab\n\ncde"

/-- C4: for a text with `n` double-newline separator occurrences, `chunk` yields
exactly `n + 1` chunks; empty chunks are kept, no filtering. -/
theorem chunk_count (text : String) :
    (chunk text).length = countSep text.data + 1 := by
  unfold chunk
  rw [List.length_map]
  exact length_pySplitSep text.data

/-! ### First result of a search, and index construction -/

theorem create_uniform (v : Vec) (vs : List Vec)
    (huni : ∀ w ∈ vs, w.length = v.length) :
    create_faiss_index (v :: vs) = some ⟨v.length, v :: vs⟩ := by
  unfold create_faiss_index
  have hall : vs.all (fun w => w.length == v.length) = true := by
    rw [List.all_eq_true]
    intro w hw
    simpa using huni w hw
  simp [hall]

theorem create_map_encode (encode : String → Vec) (d : Nat)
    (hd : ∀ s, (encode s).length = d) (c : String) (cs : List String) :
    create_faiss_index ((c :: cs).map encode)
      = some ⟨(encode c).length, (c :: cs).map encode⟩ := by
  rw [List.map_cons]
  apply create_uniform
  intro w hw
  rcases List.mem_map.mp hw with ⟨c2, _, rfl⟩
  rw [hd c2, hd c]

theorem faissSearch_mem_pos {idx : FaissIndex} {q : Vec} {j k : Nat}
    (hj : j < idx.vecs.length) (hk : idx.vecs.length ≤ k) :
    ((j : Int)) ∈ (faissSearch idx q k).2 := by
  rw [faissSearch_snd]
  apply List.mem_append_left
  apply List.mem_map.mpr
  refine ⟨(sqDist q (idx.vecs.getD j []), j), ?_, rfl⟩
  have hlen : (sortPairs (scoredOf idx q)).length ≤ k := by
    rw [sortPairs_length, scoredOf_length]
    exact hk
  rw [List.take_of_length_le hlen]
  exact (sortPairs_perm _).mem_iff.mpr (scoredOf_mem_of_lt hj)

/-- When some stored vector is at distance 0 from the query and every other stored
vector is at positive distance, its id heads the id row. -/
theorem faissSearch_head (idx : FaissIndex) (q : Vec) {j k : Nat}
    (hk : 0 < k) (hj : j < idx.vecs.length)
    (hq : sqDist q (idx.vecs.getD j []) = 0)
    (hmin : ∀ j2, j2 < idx.vecs.length → j2 ≠ j →
      0 < sqDist q (idx.vecs.getD j2 [])) :
    ∃ rest, (faissSearch idx q k).2 = ((j : Int)) :: rest := by
  have ha : ((0 : Int), j) ∈ scoredOf idx q := by
    have h1 := scoredOf_mem_of_lt (q := q) hj
    rwa [hq] at h1
  have hmin2 : ∀ b ∈ scoredOf idx q,
      b = ((0 : Int), j) ∨ keyLe b ((0 : Int), j) = false := by
    intro b hb
    rcases scoredOf_mem hb with ⟨hb1, hb2⟩
    by_cases hbj : b.2 = j
    · left
      have hb0 : b.1 = 0 := by rw [hb2, hbj, hq]
      exact Prod.ext hb0 hbj
    · right
      have hpos : 0 < b.1 := by
        rw [hb2]
        exact hmin b.2 hb1 hbj
      have h1 : ¬ b.1 < 0 := by omega
      have h2 : ¬ b.1 = 0 := by omega
      simp [keyLe, h1, h2]
  rcases sortPairs_head_min ha hmin2 with ⟨t, ht⟩
  cases k with
  | zero => exact absurd hk (by simp)
  | succ m =>
    rw [faissSearch_snd, ht, List.take_succ_cons]
    simp only [List.map_cons, List.cons_append]
    exact ⟨_, rfl⟩

/-- C6: self-retrieval round trip.  For the five chunks A..E, querying with a string
whose embedding is chunk C's embedding returns C among the 5 results, at squared
distance 0 from itself; and for the text giving chunks alpha, beta, gamma (with
distinct embeddings), querying with alpha ranks alpha first. -/
theorem self_retrieval (encode : String → Vec) (d : Nat)
    (hd : ∀ s, (encode s).length = d)
    (hab : encode "alpha" ≠ encode "beta")
    (hag : encode "alpha" ≠ encode "gamma") :
    (∃ idx r,
      create_faiss_index ((["A", "B", "C", "D", "E"] : List String).map encode)
        = some idx ∧
      search_query encode "C" idx ["A", "B", "C", "D", "E"] = some r ∧
      r.length = 5 ∧ "C" ∈ r ∧ sqDist (encode "C") (encode "C") = 0) ∧
    (chunk "alpha\n\nbeta\n\ngamma" = ["alpha", "beta", "gamma"] ∧
     ∃ idx r,
      create_faiss_index ((chunk "alpha\n\nbeta\n\ngamma").map encode) = some idx ∧
      search_query encode "alpha" idx (chunk "alpha\n\nbeta\n\ngamma") = some r ∧
      r.head? = some "alpha") := by
  have hchunk : chunk "alpha\n\nbeta\n\ngamma" = ["alpha", "beta", "gamma"] := by
    decide
  constructor
  · have hdim : (encode "C").length
        = (FaissIndex.mk (encode "A").length
            ((["A", "B", "C", "D", "E"] : List String).map encode)).d := by
      rw [hd "C"]
      show d = (encode "A").length
      rw [hd "A"]
    have hlen5 : (FaissIndex.mk (encode "A").length
        ((["A", "B", "C", "D", "E"] : List String).map encode)).vecs.length = 5 := by
      simp
    have hsome : ∀ i ∈ (faissSearch
        ⟨(encode "A").length, (["A", "B", "C", "D", "E"] : List String).map encode⟩
        (encode "C") 5).2,
        (pyGet ["A", "B", "C", "D", "E"] i).isSome := by
      intro i hi
      have hb := faissSearch_snd_mem_full (by rw [hlen5]) hi
      rw [hlen5] at hb
      exact pyGet_isSome_of_lt hb.1 (by exact_mod_cast hb.2)
    rcases pySelect_isSome hsome with ⟨r, hr, hrlen⟩
    refine ⟨⟨(encode "A").length, (["A", "B", "C", "D", "E"] : List String).map encode⟩,
      r, create_map_encode encode d hd "A" ["B", "C", "D", "E"], ?_, ?_, ?_,
      sqDist_self _⟩
    · unfold search_query
      rw [if_pos hdim]
      exact hr
    · rw [hrlen, faissSearch_snd_length]
    · have hmem2 : ((2 : Nat) : Int) ∈ (faissSearch
          ⟨(encode "A").length, (["A", "B", "C", "D", "E"] : List String).map encode⟩
          (encode "C") 5).2 := by
        apply faissSearch_mem_pos
        · rw [hlen5]
          omega
        · rw [hlen5]
      have hget2 : pyGet ["A", "B", "C", "D", "E"] ((2 : Nat) : Int) = some "C" := by
        decide
      exact pySelect_mem hr hmem2 hget2
  · have hvecs : ((chunk "alpha\n\nbeta\n\ngamma").map encode)
        = [encode "alpha", encode "beta", encode "gamma"] := by
      rw [hchunk]
      simp
    have hdim : (encode "alpha").length
        = (FaissIndex.mk (encode "alpha").length
            ((chunk "alpha\n\nbeta\n\ngamma").map encode)).d := rfl
    have hlen3 : (FaissIndex.mk (encode "alpha").length
        ((chunk "alpha\n\nbeta\n\ngamma").map encode)).vecs.length = 3 := by
      simp [hvecs]
    have hhead := faissSearch_head
      ⟨(encode "alpha").length, (chunk "alpha\n\nbeta\n\ngamma").map encode⟩
      (encode "alpha") (j := 0) (k := 5)
      (by omega) (by rw [hlen3]; omega)
      (by simp only [hvecs]; simpa using sqDist_self (encode "alpha"))
      (by
        intro j2 hj2 hne
        rw [hlen3] at hj2
        simp only [hvecs]
        match j2, hj2, hne with
        | 0, _, hne => exact absurd rfl hne
        | 1, _, _ =>
          have hb : ([encode "alpha", encode "beta", encode "gamma"].getD 1 [])
              = encode "beta" := rfl
          rw [hb]
          refine sqDist_pos ?_ hab
          rw [hd "alpha"]
          show d = (encode "beta").length
          rw [hd "beta"]
        | 2, _, _ =>
          have hb : ([encode "alpha", encode "beta", encode "gamma"].getD 2 [])
              = encode "gamma" := rfl
          rw [hb]
          refine sqDist_pos ?_ hag
          rw [hd "alpha"]
          show d = (encode "gamma").length
          rw [hd "gamma"])
    rcases hhead with ⟨rest, hrest⟩
    have hsome : ∀ i ∈ (faissSearch
        ⟨(encode "alpha").length, (chunk "alpha\n\nbeta\n\ngamma").map encode⟩
        (encode "alpha") 5).2,
        (pyGet (chunk "alpha\n\nbeta\n\ngamma") i).isSome := by
      intro i hi
      rcases faissSearch_snd_mem hi with rfl | ⟨h1, h2⟩
      · rw [pyGet_neg_one (by rw [hchunk]; simp)]
        rw [hchunk]
        simp
      · rw [hlen3] at h2
        apply pyGet_isSome_of_lt h1
        rw [hchunk]
        exact_mod_cast h2
    rcases pySelect_isSome hsome with ⟨r, hr, hrlen⟩
    refine ⟨hchunk, ⟨(encode "alpha").length,
      (chunk "alpha\n\nbeta\n\ngamma").map encode⟩, r, ?_, ?_, ?_⟩
    · rw [hchunk]
      exact create_map_encode encode d hd "alpha" ["beta", "gamma"]
    · unfold search_query
      rw [if_pos hdim]
      exact hr
    · rw [hrest] at hr
      rw [pySelect] at hr
      have hget0 : pyGet (chunk "alpha\n\nbeta\n\ngamma") ((0 : Nat) : Int)
          = some "alpha" := by
        rw [hchunk]
        decide
      rw [hget0] at hr
      cases hrest2 : pySelect (chunk "alpha\n\nbeta\n\ngamma") rest with
      | none =>
        rw [hrest2] at hr
        simp at hr
      | some cs =>
        rw [hrest2] at hr
        simp at hr
        rw [← hr]
        rfl

/-- C6 witness at a concrete injective embedding. -/
theorem self_retrieval_witness :
    (∃ idx r,
      create_faiss_index ((["A", "B", "C", "D", "E"] : List String).map
        (fun s => [Int.ofNat (s.length + s.data.foldl (fun a c => a + c.toNat) 0)]))
        = some idx ∧
      search_query (fun s => [Int.ofNat (s.length + s.data.foldl (fun a c => a + c.toNat) 0)])
        "C" idx ["A", "B", "C", "D", "E"] = some r ∧
      r.length = 5 ∧ "C" ∈ r ∧
      sqDist ((fun s => [Int.ofNat (s.length + s.data.foldl (fun a c => a + c.toNat) 0)]) "C")
        ((fun s => [Int.ofNat (s.length + s.data.foldl (fun a c => a + c.toNat) 0)]) "C") = 0) ∧
    (chunk "alpha\n\nbeta\n\ngamma" = ["alpha", "beta", "gamma"] ∧
     ∃ idx r,
      create_faiss_index ((chunk "alpha\n\nbeta\n\ngamma").map
        (fun s => [Int.ofNat (s.length + s.data.foldl (fun a c => a + c.toNat) 0)])) = some idx ∧
      search_query (fun s => [Int.ofNat (s.length + s.data.foldl (fun a c => a + c.toNat) 0)])
        "alpha" idx (chunk "alpha\n\nbeta\n\ngamma") = some r ∧
      r.head? = some "alpha") :=
  self_retrieval (fun s => [Int.ofNat (s.length + s.data.foldl (fun a c => a + c.toNat) 0)])
    1 (fun _ => rfl) (by decide) (by decide)

/-- C7: the index is sized to the first vector's dimensionality, a batch with
mismatched dimensionalities errors, and insertion order is the id space: with
pairwise-distinct vectors, searching with the vector inserted at position `i`
returns id `i` first. -/
theorem build_index_order (v : Vec) (vs : List Vec)
    (huni : ∀ w ∈ vs, w.length = v.length)
    (hnd : (v :: vs).Nodup) :
    (∃ idx, create_faiss_index (v :: vs) = some idx ∧ idx.d = v.length ∧
      idx.vecs = v :: vs ∧
      ∀ i, i < (v :: vs).length → ∀ k, 0 < k →
        ((faissSearch idx ((v :: vs).getD i []) k).2).head? = some ((i : Int))) ∧
    (∀ u : Vec, ∀ us : List Vec, (∃ w ∈ us, w.length ≠ u.length) →
      create_faiss_index (u :: us) = none) := by
  constructor
  · refine ⟨⟨v.length, v :: vs⟩, create_uniform v vs huni, rfl, rfl, ?_⟩
    intro i hi k hk
    have hlenall : ∀ w ∈ (v :: vs), w.length = v.length := by
      intro w hw
      rcases List.mem_cons.mp hw with rfl | hw2
      · rfl
      · exact huni w hw2
    have hmin : ∀ j2, j2 < (v :: vs).length → j2 ≠ i →
        0 < sqDist ((v :: vs).getD i []) ((v :: vs).getD j2 []) := by
      intro j2 hj2 hne
      apply sqDist_pos
      · rw [getD_eq_of_lt [] hi, getD_eq_of_lt [] hj2]
        rw [hlenall _ (List.getElem_mem hi), hlenall _ (List.getElem_mem hj2)]
      · rw [getD_eq_of_lt [] hi, getD_eq_of_lt [] hj2]
        intro heq
        exact hne (((List.Nodup.getElem_inj_iff hnd).mp heq.symm))
    rcases faissSearch_head ⟨v.length, v :: vs⟩ ((v :: vs).getD i []) hk hi
      (sqDist_self _) hmin with ⟨rest, hrest⟩
    rw [hrest]
    rfl
  · intro u us hmm
    rcases hmm with ⟨w, hw, hne⟩
    unfold create_faiss_index
    cases hall : us.all (fun w2 => w2.length == u.length) with
    | false => simp [hall]
    | true =>
      exfalso
      have := List.all_eq_true.mp hall w hw
      simp at this
      exact hne this

/-- C7 witness at three concrete distinct vectors. -/
theorem build_index_order_witness :
    (∃ idx, create_faiss_index ([0] :: [[1], [2]]) = some idx ∧
      idx.d = ([0] : Vec).length ∧
      idx.vecs = [0] :: [[1], [2]] ∧
      ∀ i, i < (([0] : Vec) :: [[1], [2]]).length → ∀ k, 0 < k →
        ((faissSearch idx ((([0] : Vec) :: [[1], [2]]).getD i []) k).2).head?
          = some ((i : Int))) ∧
    (∀ u : Vec, ∀ us : List Vec, (∃ w ∈ us, w.length ≠ u.length) →
      create_faiss_index (u :: us) = none) :=
  build_index_order [0] [[1], [2]] (by decide) (by decide)

/-- C8: the empty text gives the single empty chunk, whose embedding indexes
without error, and a search with any positive `k ≤ 1` returns exactly that trivial
chunk.  The parametric `k` follows the spec's `search(query, index, chunks, k)`. -/
theorem empty_text_roundtrip (encode : String → Vec) (d : Nat)
    (hd : ∀ s, (encode s).length = d) (q : String) (k : Nat)
    (hk0 : 0 < k) (hk1 : k ≤ 1) :
    chunk "" = [""] ∧
    ∃ idx, create_faiss_index ((chunk "").map encode) = some idx ∧
      search_query_k encode q idx (chunk "") k = some [""] := by
  have hc : chunk "" = [""] := by decide
  have hk : k = 1 := by omega
  subst hk
  refine ⟨hc, ⟨(encode "").length, [encode ""]⟩, ?_, ?_⟩
  · rw [hc]
    exact create_map_encode encode d hd "" []
  · rw [hc]
    unfold search_query_k
    rw [if_pos (by rw [hd q]; show d = (encode "").length; rw [hd ""])]
    rw [faissSearch_snd]
    simp [scoredOf, sortPairs, insertPair, pySelect, pyGet]

/-- C8 witness at a concrete model, query and `k = 1`. -/
theorem empty_text_roundtrip_witness :
    chunk "" = [""] ∧
    ∃ idx, create_faiss_index ((chunk "").map
        (fun s => [Int.ofNat s.length])) = some idx ∧
      search_query_k (fun s => [Int.ofNat s.length]) "zz" idx (chunk "") 1
        = some [""] :=
  empty_text_roundtrip (fun s => [Int.ofNat s.length]) 1 (fun _ => rfl) "zz" 1
    (by decide) (by decide)

/-- C10: on an index with fewer than 5 vectors and an aligned chunk list,
`search_query` raises nothing: the id row is padded with `-1` after the real
results, Python's negative indexing maps every padded slot to the last chunk, and
the call returns exactly 5 chunk strings. -/
theorem search_query_underfull (encode : String → Vec) (q : String)
    (idx : FaissIndex) (chunks : List String)
    (hd : (encode q).length = idx.d)
    (hm : idx.vecs.length < 5) (h0 : 0 < idx.vecs.length)
    (hc : chunks.length = idx.vecs.length) :
    ∃ r c, search_query encode q idx chunks = some r ∧ r.length = 5 ∧
      chunks.getLast? = some c ∧
      ((faissSearch idx (encode q) 5).2).drop idx.vecs.length
        = List.replicate (5 - idx.vecs.length) (-1) ∧
      r.drop idx.vecs.length = List.replicate (5 - idx.vecs.length) c := by
  have hne : chunks ≠ [] := by
    intro h
    rw [h] at hc
    simp at hc
    omega
  rcases Option.isSome_iff_exists.mp (List.getLast?_isSome.mpr hne) with ⟨c, hcval⟩
  have hFlen : (((sortPairs (scoredOf idx (encode q))).take 5).map
      (fun p => ((p.2 : Int)))).length = idx.vecs.length := by
    simp only [List.length_map, List.length_take, sortPairs_length, scoredOf_length]
    omega
  have hmin5 : min 5 idx.vecs.length = idx.vecs.length := by omega
  have hpos : (faissSearch idx (encode q) 5).2
      = ((sortPairs (scoredOf idx (encode q))).take 5).map (fun p => ((p.2 : Int)))
        ++ List.replicate (5 - idx.vecs.length) (-1) := by
    rw [faissSearch_snd, hmin5]
  have hFsome : ∀ i ∈ ((sortPairs (scoredOf idx (encode q))).take 5).map
      (fun p => ((p.2 : Int))), (pyGet chunks i).isSome := by
    intro i hi
    have hb := mem_take_map_bound hi
    exact pyGet_isSome_of_lt hb.1 (by omega)
  rcases pySelect_isSome hFsome with ⟨r1, hr1, hr1len⟩
  have hrep := pySelect_replicate_neg_one hcval (5 - idx.vecs.length)
  have hall := pySelect_append hr1 hrep
  refine ⟨r1 ++ List.replicate (5 - idx.vecs.length) c, c, ?_, ?_, hcval, ?_, ?_⟩
  · unfold search_query
    rw [if_pos hd, hpos]
    exact hall
  · rw [List.length_append, List.length_replicate, hr1len, hFlen]
    omega
  · rw [hpos]
    have h2 : idx.vecs.length = (((sortPairs (scoredOf idx (encode q))).take 5).map
        (fun p => ((p.2 : Int)))).length := hFlen.symm
    rw [h2, List.drop_left]
  · have h2 : idx.vecs.length = r1.length := by
      rw [hr1len, hFlen]
    rw [h2, List.drop_left]

/-- C10 witness at a concrete 2-vector index with its aligned 2-chunk list. -/
theorem search_query_underfull_witness :
    ∃ r c, search_query (fun _ => ([0] : Vec)) "t" ⟨1, [[0], [2]]⟩ ["a", "b"]
        = some r ∧ r.length = 5 ∧
      (["a", "b"] : List String).getLast? = some c ∧
      ((faissSearch ⟨1, [[0], [2]]⟩ ((fun _ => ([0] : Vec)) "t") 5).2).drop
          (FaissIndex.mk 1 [[0], [2]]).vecs.length
        = List.replicate (5 - (FaissIndex.mk 1 [[0], [2]]).vecs.length) (-1) ∧
      r.drop (FaissIndex.mk 1 [[0], [2]]).vecs.length
        = List.replicate (5 - (FaissIndex.mk 1 [[0], [2]]).vecs.length) c :=
  search_query_underfull (fun _ => ([0] : Vec)) "t" ⟨1, [[0], [2]]⟩ ["a", "b"]
    (by decide) (by decide) (by decide) (by decide)

end Rag
